import Mathlib

/-!
Verification of the rustea evolutionary-algorithm library.

This file gives a shallow embedding of the pieces of the library that the
probabilistic-model, factorization, selection and driver claims are about:

* `src/src/model.rs` — `Factorization` (`univariate`, `join`, `join_all`),
  `MultivariateModel` (`estimate_from_population`, `sample`'s index
  unpacking, the MDL complexity scores);
* `src/rustea-lib/src/gene.rs` — `BoolDomain` and
  `DisjointIntegralDomain` (`get` / `index_of` via binary search);
* `src/rustea-lib/src/selection.rs` — the four selection operators;
* `src/rustea-lib/src/simplega.rs` — the `run` loop's evaluation counter;
* `src/rustea-lib/src/ecga.rs` — the greedy linkage-learning loop.

Machine integers (`usize`) are modelled as `Nat`; `f64` probabilities are
modelled exactly as `ℚ` where the code computes `count / len`, and the
`f64` MDL scores as real numbers. Rust panics (failed asserts, `%` by
zero, `unwrap` of `None`) are modelled as `Except` / `Option` error
results. Genotypes are modelled as functions `Nat → A` (indexed access);
genomes as functions `Nat → DomainE A` giving each position's domain.
-/

set_option maxHeartbeats 1000000

/-- The part of a `DiscreteDomain` consumed by model estimation and
sampling: its size (`len()`) and the canonical index of an allele
(`index_of`). -/
structure DomainE (A : Type) where
  len : Nat
  indexOf : A → Nat

/-- `BoolDomain::index_of` from `gene.rs`: `true ↦ 1`, `false ↦ 0`. -/
def boolIndexOf : Bool → Nat
  | true => 1
  | false => 0

/-- `BoolDomain::get` from `gene.rs`: `0 ↦ false`, `1 ↦ true`, any other
index panics (modelled as `none`). -/
def boolGet : Nat → Option Bool
  | 0 => some false
  | 1 => some true
  | _ => none

/-- `BoolDomain::len` is the constant 2. -/
def boolLen : Nat := 2

/-- The boolean domain packaged for the model layer. -/
def boolDomainE : DomainE Bool := ⟨boolLen, boolIndexOf⟩

/-- An all-boolean genome (`Genome::with_bool_domain`). -/
def boolGenome : Nat → DomainE Bool := fun _ => boolDomainE

/-- The core loop of `slice::binary_search` as run by
`DisjointIntegralDomain::index_of`: maintains the half-open window
`[left, right)`, probes `mid = left + (right - left) / 2`, and narrows
left or right on a strict comparison.  Fuel makes the recursion
structural; `none` models both fuel exhaustion and the `Err` case that
`index_of` unwraps into a panic. -/
def binarySearchGo (l : List Int) (target : Int) : Nat → Nat → Nat → Option Nat
  | 0, _, _ => none
  | fuel + 1, left, right =>
    if left < right then
      if l.getD (left + (right - left) / 2) 0 < target then
        binarySearchGo l target fuel (left + (right - left) / 2 + 1) right
      else if target < l.getD (left + (right - left) / 2) 0 then
        binarySearchGo l target fuel left (left + (right - left) / 2)
      else some (left + (right - left) / 2)
    else none

/-- `DisjointIntegralDomain::index_of`: binary search over the whole
allele list (`self.alleles.binary_search(&allele)`). -/
def indexOfInt (l : List Int) (a : Int) : Option Nat :=
  binarySearchGo l a (l.length + 1) 0 l.length

/-- `Factorization::univariate(len)`: the factors `[[0],[1],…,[len-1]]`. -/
def univariate (len : Nat) : List (List Nat) :=
  (List.range len).map (fun i => [i])

/-- The `iter().enumerate().filter_map(..)` of `Factorization::join`:
drop the elements sitting at positions `a` and `b`, keeping order. The
first argument is the index of the head of the remaining list. -/
def removeTwoGo (a b : Nat) : Nat → List α → List α
  | _, [] => []
  | i, x :: xs =>
    if i = a ∨ i = b then removeTwoGo a b (i + 1) xs
    else x :: removeTwoGo a b (i + 1) xs

/-- `Factorization::join(idx_a, idx_b)`: all factors except those at
positions `idx_a` and `idx_b`, followed by their concatenation. -/
def Fjoin (F : List (List Nat)) (a b : Nat) : List (List Nat) :=
  removeTwoGo a b 0 F ++ [F.getD a [] ++ F.getD b []]

/-- `Factorization::join_all()`: `join(a, b)` for `0 ≤ a < b < n`, `a`
outermost, as in `(0..n-1).flat_map(|a| (a+1..n).map(|b| join(a, b)))`. -/
def joinAll (F : List (List Nat)) : List (List (List Nat)) :=
  (List.range (F.length - 1)).flatMap
    (fun a => (List.range' (a + 1) (F.length - (a + 1))).map (fun b => Fjoin F a b))

/-- The index pairs enumerated by `join_all`, in enumeration order. -/
def allPairs (n : Nat) : List (Nat × Nat) :=
  (List.range (n - 1)).flatMap
    (fun a => (List.range' (a + 1) (n - (a + 1))).map (fun b => (a, b)))

/-- `Factorization::iter()`: the factors with the empty ones filtered
out. -/
def activeFactors (F : List (List Nat)) : List (List Nat) :=
  F.filter (fun f => !f.isEmpty)

/-- `acc` after one step of the index-packing fold of
`MultivariateModel::estimate_from_population`: multiply the slots below
`i` by the current domain size `l` and slot `i` by the allele index `x`. -/
def accMul (l x : Nat) : Nat → List Nat → List Nat
  | _, [] => []
  | 0, v :: acc => v * x :: acc
  | i + 1, v :: acc => v * l :: accMul l x i acc

/-- The enumerated fold of `estimate_from_population` over the pairs
`(gene index, allele)` of one factor; the `Nat` argument is the
enumeration counter `i`. -/
def idxFold (genome : Nat → DomainE A) (g : Nat → A) : List Nat → Nat → List Nat → List Nat
  | [], _, acc => acc
  | gidx :: rest, i, acc =>
    idxFold genome g rest (i + 1)
      (accMul ((genome gidx).len) ((genome gidx).indexOf (g gidx)) i acc)

/-- The linear index at which `estimate_from_population` counts the joint
outcome of genotype `g` on factor `f`: the final accumulator summed. -/
def jointIndex (genome : Nat → DomainE A) (f : List Nat) (g : Nat → A) : Nat :=
  (idxFold genome g f 0 (List.replicate f.length 1)).sum

/-- Product of the domain sizes along a factor (value of the
`fold(1, |acc, idx| acc * genome.get(*idx).domain().len())` sizing fold). -/
def factorSize (genome : Nat → DomainE A) (f : List Nat) : Nat :=
  f.foldl (fun acc idx => acc * (genome idx).len) 1

/-- Product of the domain sizes along a factor, in `map`/`prod` form. -/
def prodLens (genome : Nat → DomainE A) (f : List Nat) : Nat :=
  (f.map (fun idx => (genome idx).len)).prod

/-- The linear index in the closed form of the specification, read with
the weight of position `j` being the product of the domain sizes of the
positions after `j` (first position most significant). -/
def sigmaIndexBig (genome : Nat → DomainE A) (f : List Nat) (g : Nat → A) : Nat :=
  ((List.range f.length).map
    (fun j => (genome (f.getD j 0)).indexOf (g (f.getD j 0)) * prodLens genome (f.drop (j + 1)))).sum

/-- The linear index exactly as written in the specification text: the
weight of position `j` is the product of the domain sizes of the
positions before `j`. -/
def sigmaIndexLittle (genome : Nat → DomainE A) (f : List Nat) (g : Nat → A) : Nat :=
  ((List.range f.length).map
    (fun j => (genome (f.getD j 0)).indexOf (g (f.getD j 0)) * prodLens genome (f.take j))).sum

/-- Recursive form of the big-endian mixed-radix packing. -/
def mixedIndex (genome : Nat → DomainE A) (g : Nat → A) : List Nat → Nat
  | [] => 0
  | gidx :: rest =>
    (genome gidx).indexOf (g gidx) * prodLens genome rest + mixedIndex genome g rest

/-- `vec[idx] += 1` on a counter vector (no-op out of range, as the claims
only exercise in-range indices). -/
def bump : List Nat → Nat → List Nat
  | [], _ => []
  | v :: c, 0 => (v + 1) :: c
  | v :: c, i + 1 => v :: bump c i

/-- One population member's contribution to the per-factor counters of
`estimate_from_population`. -/
def countsStep (genome : Nat → DomainE A) (factors : List (List Nat)) (g : Nat → A)
    (cs : List (List Nat)) : List (List Nat) :=
  List.zipWith (fun f c => bump c (jointIndex genome f g)) factors cs

/-- The per-factor counter vectors built by
`MultivariateModel::estimate_from_population` (factors are the non-empty
ones, as produced by `Factorization::iter()`). -/
def estimateCounts (genome : Nat → DomainE A) (F : List (List Nat))
    (pop : List (Nat → A)) : List (List Nat) :=
  pop.foldl (fun cs g => countsStep genome (activeFactors F) g cs)
    ((activeFactors F).map (fun f => List.replicate (factorSize genome f) 0))

/-- The per-factor probability vectors: each count divided by the
population size (`f64` division modelled exactly over `ℚ`). -/
def estimateProbs (genome : Nat → DomainE A) (F : List (List Nat))
    (pop : List (Nat → A)) : List (List ℚ) :=
  (estimateCounts genome F pop).map
    (fun c => c.map (fun (cnt : Nat) => (cnt : ℚ) / (pop.length : ℚ)))

/-- A fitted `MultivariateModel`: the factorization it was built from,
its per-factor probability vectors, and the population size `N`. -/
structure MModel (A : Type) where
  factorization : List (List Nat)
  probabilities : List (List ℚ)
  sampleSize : Nat

/-- `MultivariateModel::estimate_from_population`. -/
def estimate (genome : Nat → DomainE A) (pop : List (Nat → A))
    (F : List (List Nat)) : MModel A :=
  ⟨F, estimateProbs genome F pop, pop.length⟩

/-- `acc` after one step of the divisor fold of
`MultivariateModel::sample`: multiply the slots below `i` by the current
domain size `l`; slot `i` is untouched. -/
def divAcc (l : Nat) : Nat → List Nat → List Nat
  | _, [] => []
  | 0, acc => acc
  | i + 1, v :: acc => v * l :: divAcc l i acc

/-- The enumerated divisor fold of `sample` over a factor. -/
def divFold (genome : Nat → DomainE A) : List Nat → Nat → List Nat → List Nat
  | [], _, acc => acc
  | gidx :: rest, i, acc => divFold genome rest (i + 1) (divAcc ((genome gidx).len) i acc)

/-- The divisor vector `sample` uses to unpack a drawn linear index. -/
def divisors (genome : Nat → DomainE A) (f : List Nat) : List Nat :=
  divFold genome f 0 (List.replicate f.length 1)

/-- The successive quotient/remainder decoding loop of `sample`:
`idx_i = raw / divisors[i]; raw %= divisors[i]`. -/
def decodeGo : List Nat → Nat → List Nat
  | [], _ => []
  | d :: ds, raw => raw / d :: decodeGo ds (raw % d)

/-- Suffix products of the domain sizes along a factor (the closed form
of the divisor vector). -/
def sufProds (genome : Nat → DomainE A) : List Nat → List Nat
  | [] => []
  | _ :: rest => prodLens genome rest :: sufProds genome rest

/-- The entropy term of `compressed_population_complexity`: probabilities
within `1e-5` of zero are skipped, the rest contribute `-p·log₂ p`. -/
noncomputable def entropyOf (ps : List ℚ) : ℝ :=
  ((ps.filter (fun p => !(|p| ≤ 1 / 100000 : Bool))).map
    (fun p => -((p : ℝ) * Real.logb 2 (p : ℝ)))).sum

/-- `MultivariateModel::compressed_population_complexity`. -/
noncomputable def cpc (m : MModel A) : ℝ :=
  (m.sampleSize : ℝ) * ((m.probabilities.map entropyOf).sum)

/-- `MultivariateModel::model_complexity`. -/
noncomputable def mc (m : MModel A) : ℝ :=
  Real.logb 2 ((m.sampleSize : ℝ) + 1) *
    (((m.probabilities.map (fun ps => ps.length - 1)).sum : Nat) : ℝ)

/-- `MultivariateModel::combined_complexity`, with the hard-coded MDL
weight `0.2`. -/
noncomputable def ccM (m : MModel A) : ℝ := cpc m + 0.2 * mc m

/-- One fold step of `Iterator::min_by` under `total_cmp` on combined
complexity: keep the earlier model on ties, replace only on a strictly
smaller score. -/
noncomputable def minByCCStep (acc : Option (MModel A)) (m : MModel A) : Option (MModel A) :=
  match acc with
  | none => some m
  | some b => if ccM m < ccM b then some m else some b

/-- `Iterator::min_by` over fitted models by combined complexity. -/
noncomputable def minByCC (l : List (MModel A)) : Option (MModel A) :=
  l.foldl minByCCStep none

/-- The greedy linkage-learning loop of `Ecga::select_model`: fit one
model per factorization in `join_all` of the current model's
factorization, take the one of minimum combined complexity, accept it
when its score is `≤` the current score, stop otherwise (or when there
are no candidates). Fuel makes the recursion structural; any fuel
`≥` the number of factors is never exhausted. -/
noncomputable def selectModelGo (genome : Nat → DomainE A) (pop : List (Nat → A)) :
    Nat → MModel A → MModel A
  | 0, model => model
  | fuel + 1, model =>
    match minByCC ((joinAll model.factorization).map (fun fact => estimate genome pop fact)) with
    | none => model
    | some best =>
      if ccM best ≤ ccM model then selectModelGo genome pop fuel best else model

/-- `Ecga::select_model` started from a given initial factorization. -/
noncomputable def selectModel (genome : Nat → DomainE A) (pop : List (Nat → A))
    (F : List (List Nat)) (fuel : Nat) : MModel A :=
  selectModelGo genome pop fuel (estimate genome pop F)

/-- The factorizations reachable by the greedy loop: each step replaces
the current factorization by the factorization of the minimum-complexity
candidate among the models fitted to `join_all`, and only when that
candidate's combined complexity is `≤` the current one. -/
inductive GreedyReach (genome : Nat → DomainE A) (pop : List (Nat → A)) :
    List (List Nat) → List (List Nat) → Prop
  | refl (F : List (List Nat)) : GreedyReach genome pop F F
  | step {F G : List (List Nat)} {M : MModel A} :
      GreedyReach genome pop F G →
      minByCC ((joinAll G).map (fun fact => estimate genome pop fact)) = some M →
      ccM M ≤ ccM (estimate genome pop G) →
      GreedyReach genome pop F M.factorization

/-- The factorizations reachable from `Factorization::univariate(L)` by
`join` calls at valid distinct factor positions. -/
inductive JoinReach (L : Nat) : List (List Nat) → Prop
  | base : JoinReach L (univariate L)
  | step {F : List (List Nat)} {a b : Nat} :
      JoinReach L F → a < F.length → b < F.length → a ≠ b →
      JoinReach L (Fjoin F a b)

/-- `NoSelection::select`: the population is untouched. -/
def noSelectionSelect (pop : List ι) (_offspring : List ι) : List ι :=
  pop

/-- `CopyOffspringSelection::select`: clear the population, then copy the
offspring into it. -/
def copyOffspringSelect (_pop : List ι) (offspring : List ι) : List ι :=
  offspring

/-- `TruncationSelection::select`: append the offspring, stable-sort by
the evaluator's comparator, truncate to the original size. -/
def truncationSelect (cmp : ι → ι → Ordering) (pop : List ι) (offspring : List ι) : List ι :=
  ((pop ++ offspring).mergeSort (fun a b => (cmp a b).isLE)).take pop.length

/-- The distinct panics `TournamentSelection::select` can raise: `%` by
zero, the two divisibility asserts (the *pool-size mismatch* error), the
`unwrap` of an empty tournament, and the final size assert. -/
inductive TourError where
  | divByZero
  | poolSizeMismatch
  | emptyTournament
  | postAssertFailed
deriving DecidableEq

/-- One fold step of `Iterator::min_by`: a later element replaces the
current best only when it compares strictly `lt`. -/
def minByStep (cmp : ι → ι → Ordering) (acc : Option ι) (x : ι) : Option ι :=
  match acc with
  | none => some x
  | some b => if cmp x b = Ordering.lt then some x else some b

/-- `Iterator::min_by`: first element of the list minimising the
comparator. -/
def minByCmp (cmp : ι → ι → Ordering) (l : List ι) : Option ι :=
  l.foldl (minByStep cmp) none

/-- Collect a list of optional results, failing when any element fails
(the `unwrap` inside the winners `map` of tournament selection). -/
def optTraverse (f : α → Option β) : List α → Option (List β)
  | [] => some []
  | x :: xs =>
    match f x, optTraverse f xs with
    | some y, some ys => some (y :: ys)
    | _, _ => none

/-- One round of tournament selection over an (already shuffled) pool:
the winner of each of the `numTour` consecutive chunks of size `k`. -/
def roundWinners (cmp : ι → ι → Ordering) (k numTour : Nat) (poolT : List ι) :
    Option (List ι) :=
  optTraverse (fun i => minByCmp cmp ((poolT.drop (k * i)).take k)) (List.range numTour)

/-- The tournament pool: the parents (when `include_parents`) followed by
the offspring. -/
def poolOf (inc : Bool) (pop offspring : List ι) : List ι :=
  (if inc then pop else []) ++ offspring

/-- The tail of `TournamentSelection::select`: collect the winners of all
iterations (`none` is the `unwrap` panic of an empty tournament) and
check the final population-size assert. -/
def tourAssemble (p : Nat) (r : Option (List (List ι))) : Except TourError (List ι) :=
  match r with
  | none => .error .emptyTournament
  | some ws => if ws.flatten.length = p then .ok ws.flatten else .error .postAssertFailed

/-- `TournamentSelection::select`.  `shuffles t` is the pool ordering
produced by the in-place shuffle at iteration `t` (a permutation of the
pool).  The guards mirror the Rust evaluation order: `pool_size %
tournament_size` panics on `tournament_size = 0`, then the first assert,
then `tournament_size * population_size % pool_size` panics on
`pool_size = 0`, then the second assert; at the end the result must have
the original population size. -/
def tournamentSelect (cmp : ι → ι → Ordering) (k : Nat) (inc : Bool)
    (shuffles : Nat → List ι) (pop offspring : List ι) : Except TourError (List ι) :=
  let p := pop.length
  let poolSize := offspring.length + (if inc then p else 0)
  if k = 0 then .error .divByZero
  else if ¬poolSize % k = 0 then .error .poolSizeMismatch
  else if poolSize = 0 then .error .divByZero
  else if ¬(k * p) % poolSize = 0 then .error .poolSizeMismatch
  else
    let numIter := k * p / poolSize
    let numTour := poolSize / k
    tourAssemble p (optTraverse (fun t => roundWinners cmp k numTour (shuffles t)) (List.range numIter))

/-- The outcome of `SimpleGA::run` (`outOfFuel` is the cut-off of the
fuelled embedding of the unbounded `while` loop). -/
inductive GAStatus where
  | targetReached (n : Nat)
  | budgetReached (n : Nat)
  | outOfFuel
deriving DecidableEq

/-- The initial evaluation pass of `run`: one `evaluate` call (one
counter increment) per individual. -/
def initialEval (pop : List ι) (c : Nat) : Nat :=
  pop.foldl (fun acc _ => acc + 1) c

/-- The main loop of `SimpleGA::run`: while the counter is below the
budget, check the target, create offspring (each child evaluated once,
advancing the counter by the offspring count), select, repeat.
`targetHit t` abstracts "a target is configured and the best individual
at iteration `t` meets it"; `offSizes t` is the number of offspring the
variation operator returns at iteration `t`. -/
def runGo (budget : Nat) (targetHit : Nat → Bool) (offSizes : Nat → Nat) :
    Nat → Nat → Nat → GAStatus
  | 0, _, _ => .outOfFuel
  | fuel + 1, iter, evals =>
    if evals < budget then
      if targetHit iter then .targetReached evals
      else runGo budget targetHit offSizes fuel (iter + 1) (evals + offSizes iter)
    else .budgetReached evals

/-- `SimpleGA::run` on a fresh evaluator (counter starts at 0). -/
def runGA (pop : List ι) (budget fuel : Nat) (targetHit : Nat → Bool)
    (offSizes : Nat → Nat) : GAStatus :=
  runGo budget targetHit offSizes fuel 0 (initialEval pop 0)

/-- The genotype used by the concrete counterexample computations:
`true` at position 0, `false` elsewhere. -/
def gCE : Nat → Bool := fun i => i == 0

/-! ### Index packing: the accumulator folds of `estimate_from_population`
and `sample` in closed form -/

lemma prodLens_nil (genome : Nat → DomainE A) : prodLens genome [] = 1 := rfl

lemma prodLens_cons (genome : Nat → DomainE A) (gidx : Nat) (rest : List Nat) :
    prodLens genome (gidx :: rest) = (genome gidx).len * prodLens genome rest := by
  simp [prodLens]

lemma accMul_getD (l x : Nat) : ∀ (i : Nat) (acc : List Nat) (j : Nat),
    (accMul l x i acc).getD j 0 =
      if j < i then acc.getD j 0 * l
      else if j = i then acc.getD j 0 * x
      else acc.getD j 0 := by
  intro i acc
  induction acc generalizing i with
  | nil =>
    intro j
    cases i <;> simp [accMul] <;> split_ifs <;> simp
  | cons v tl ih =>
    intro j
    cases i with
    | zero =>
      cases j with
      | zero => simp [accMul]
      | succ j2 => simp [accMul]
    | succ i2 =>
      cases j with
      | zero => simp [accMul]
      | succ j2 =>
        have := ih i2 j2
        simp only [accMul, List.getD_cons_succ]
        rw [this]
        split_ifs <;> first | rfl | omega

lemma accMul_length (l x : Nat) : ∀ (i : Nat) (acc : List Nat),
    (accMul l x i acc).length = acc.length := by
  intro i acc
  induction acc generalizing i with
  | nil => cases i <;> simp [accMul]
  | cons v tl ih =>
    cases i with
    | zero => simp [accMul]
    | succ i2 => simp [accMul, ih]

lemma idxFold_length (genome : Nat → DomainE A) (g : Nat → A) :
    ∀ (f : List Nat) (i : Nat) (acc : List Nat),
      (idxFold genome g f i acc).length = acc.length := by
  intro f
  induction f with
  | nil => intro i acc; rfl
  | cons gidx rest ih => intro i acc; rw [idxFold, ih, accMul_length]

lemma idxFold_getD (genome : Nat → DomainE A) (g : Nat → A) :
    ∀ (f : List Nat) (i : Nat) (acc : List Nat) (j : Nat),
      (idxFold genome g f i acc).getD j 0 =
        if j < i then acc.getD j 0 * prodLens genome f
        else if j < i + f.length then
          acc.getD j 0 * (genome (f.getD (j - i) 0)).indexOf (g (f.getD (j - i) 0)) *
            prodLens genome (f.drop (j - i + 1))
        else acc.getD j 0 := by
  intro f
  induction f with
  | nil =>
    intro i acc j
    simp only [idxFold, prodLens_nil, mul_one, List.length_nil, Nat.add_zero]
    split_ifs <;> rfl
  | cons gidx rest ih =>
    intro i acc j
    rw [idxFold, ih, accMul_getD]
    rcases Nat.lt_trichotomy j i with hj | hj | hj
    · have h1 : j < i + 1 := by omega
      have h2 : j < i + (gidx :: rest).length := by simp; omega
      simp only [if_pos hj, if_pos h1, if_pos h2, prodLens_cons]
      ring
    · subst hj
      simp only [List.length_cons]
      split_ifs <;> first
        | omega
        | (simp only [Nat.sub_self, List.getD_cons_zero, List.drop_succ_cons,
            List.drop_zero]; try ring)
    · have h1 : ¬ j < i + 1 := by omega
      have h2 : ¬ j < i := by omega
      have h3 : j ≠ i := by omega
      by_cases h4 : j < i + 1 + rest.length
      · obtain ⟨d, rfl⟩ : ∃ d, j = i + 1 + d := ⟨j - i - 1, by omega⟩
        have h5 : i + 1 + d < i + (gidx :: rest).length := by simp; omega
        have e1 : i + 1 + d - (i + 1) = d := by omega
        have e2 : i + 1 + d - i = d + 1 := by omega
        simp only [if_pos h4, if_neg h1, if_neg h2, if_neg h3, if_pos h5, e1, e2,
          List.getD_cons_succ, List.drop_succ_cons]
      · have h5 : ¬ j < i + (gidx :: rest).length := by simp; omega
        simp only [if_neg h4, if_neg h1, if_neg h2, if_neg h3, if_neg h5]

lemma divAcc_getD (l : Nat) : ∀ (i : Nat) (acc : List Nat) (j : Nat),
    (divAcc l i acc).getD j 0 = if j < i then acc.getD j 0 * l else acc.getD j 0 := by
  intro i acc
  induction acc generalizing i with
  | nil =>
    intro j
    cases i <;> simp [divAcc] <;> split_ifs <;> simp
  | cons v tl ih =>
    intro j
    cases i with
    | zero => simp [divAcc]
    | succ i2 =>
      cases j with
      | zero => simp [divAcc]
      | succ j2 =>
        have := ih i2 j2
        simp only [divAcc, List.getD_cons_succ]
        rw [this]
        split_ifs <;> first | rfl | omega

lemma divAcc_length (l : Nat) : ∀ (i : Nat) (acc : List Nat),
    (divAcc l i acc).length = acc.length := by
  intro i acc
  induction acc generalizing i with
  | nil => cases i <;> simp [divAcc]
  | cons v tl ih =>
    cases i with
    | zero => simp [divAcc]
    | succ i2 => simp [divAcc, ih]

lemma divFold_length (genome : Nat → DomainE A) :
    ∀ (f : List Nat) (i : Nat) (acc : List Nat),
      (divFold genome f i acc).length = acc.length := by
  intro f
  induction f with
  | nil => intro i acc; rfl
  | cons gidx rest ih => intro i acc; rw [divFold, ih, divAcc_length]

lemma divFold_getD (genome : Nat → DomainE A) :
    ∀ (f : List Nat) (i : Nat) (acc : List Nat) (j : Nat),
      (divFold genome f i acc).getD j 0 =
        if j < i then acc.getD j 0 * prodLens genome f
        else if j < i + f.length then acc.getD j 0 * prodLens genome (f.drop (j - i + 1))
        else acc.getD j 0 := by
  intro f
  induction f with
  | nil =>
    intro i acc j
    simp only [divFold, prodLens_nil, mul_one, List.length_nil, Nat.add_zero]
    split_ifs <;> rfl
  | cons gidx rest ih =>
    intro i acc j
    rw [divFold, ih, divAcc_getD]
    rcases Nat.lt_trichotomy j i with hj | hj | hj
    · have h1 : j < i + 1 := by omega
      have h2 : j < i + (gidx :: rest).length := by simp; omega
      simp only [if_pos hj, if_pos h1, if_pos h2, prodLens_cons]
      ring
    · subst hj
      simp only [List.length_cons]
      split_ifs <;> first
        | omega
        | (simp only [Nat.sub_self, List.drop_succ_cons, List.drop_zero]; try ring)
    · have h1 : ¬ j < i + 1 := by omega
      have h2 : ¬ j < i := by omega
      by_cases h4 : j < i + 1 + rest.length
      · obtain ⟨d, rfl⟩ : ∃ d, j = i + 1 + d := ⟨j - i - 1, by omega⟩
        have h5 : i + 1 + d < i + (gidx :: rest).length := by simp; omega
        have e1 : i + 1 + d - (i + 1) = d := by omega
        have e2 : i + 1 + d - i = d + 1 := by omega
        simp only [if_pos h4, if_neg h1, if_neg h2, if_pos h5, e1, e2, List.drop_succ_cons]
      · have h5 : ¬ j < i + (gidx :: rest).length := by simp; omega
        simp only [if_neg h4, if_neg h1, if_neg h2, if_neg h5]

/-! ### The packed index in closed form, and the unpacking of `sample` -/

lemma replicate_getD (a : Nat) : ∀ (n j : Nat),
    (List.replicate n a).getD j 0 = if j < n then a else 0 := by
  intro n
  induction n with
  | zero => intro j; simp
  | succ n ih =>
    intro j
    cases j with
    | zero => simp [List.replicate]
    | succ j2 =>
      simp only [List.replicate, List.getD_cons_succ, ih]
      split_ifs <;> first | rfl | omega

lemma sum_eq_range_getD : ∀ (l : List Nat),
    l.sum = ((List.range l.length).map (fun j => l.getD j 0)).sum := by
  intro l
  induction l with
  | nil => simp
  | cons v tl ih =>
    rw [List.sum_cons, ih, List.length_cons, List.range_succ_eq_map]
    simp [List.map_map, Function.comp_def]

lemma jointIndex_eq_sigmaIndexBig (genome : Nat → DomainE A) (f : List Nat) (g : Nat → A) :
    jointIndex genome f g = sigmaIndexBig genome f g := by
  unfold jointIndex sigmaIndexBig
  rw [sum_eq_range_getD]
  have hlen : (idxFold genome g f 0 (List.replicate f.length 1)).length = f.length := by
    rw [idxFold_length]; simp
  rw [hlen]
  apply congrArg List.sum
  apply List.map_congr_left
  intro j hj
  rw [List.mem_range] at hj
  rw [idxFold_getD]
  simp only [Nat.not_lt_zero, if_false, Nat.zero_add, Nat.sub_zero, if_pos hj,
    replicate_getD, if_pos hj, one_mul]

lemma sigmaIndexBig_eq_mixedIndex (genome : Nat → DomainE A) (g : Nat → A) :
    ∀ (f : List Nat), sigmaIndexBig genome f g = mixedIndex genome g f := by
  intro f
  induction f with
  | nil => simp [sigmaIndexBig, mixedIndex]
  | cons gidx rest ih =>
    rw [mixedIndex, ← ih]
    unfold sigmaIndexBig
    rw [List.length_cons, List.range_succ_eq_map, List.map_cons, List.sum_cons]
    simp only [List.getD_cons_zero, List.drop_succ_cons, List.drop_zero, List.map_map]
    congr 1

lemma foldl_mul_map (gl : Nat → Nat) : ∀ (f : List Nat) (a : Nat),
    f.foldl (fun acc idx => acc * gl idx) a = a * (f.map gl).prod := by
  intro f
  induction f with
  | nil => intro a; simp
  | cons x tl ih =>
    intro a
    rw [List.foldl_cons, ih, List.map_cons, List.prod_cons]
    ring

lemma factorSize_eq_prodLens (genome : Nat → DomainE A) (f : List Nat) :
    factorSize genome f = prodLens genome f := by
  unfold factorSize prodLens
  rw [foldl_mul_map]
  ring

lemma mixedIndex_lt_prodLens (genome : Nat → DomainE A) (g : Nat → A) :
    ∀ (f : List Nat),
      (∀ idx ∈ f, (genome idx).indexOf (g idx) < (genome idx).len) →
      mixedIndex genome g f < prodLens genome f := by
  intro f
  induction f with
  | nil => intro; simp [mixedIndex, prodLens_nil]
  | cons gidx rest ih =>
    intro h
    rw [mixedIndex, prodLens_cons]
    have hx : (genome gidx).indexOf (g gidx) < (genome gidx).len :=
      h gidx (List.mem_cons_self gidx rest)
    have hr : mixedIndex genome g rest < prodLens genome rest :=
      ih (fun idx hidx => h idx (List.mem_cons_of_mem _ hidx))
    calc (genome gidx).indexOf (g gidx) * prodLens genome rest + mixedIndex genome g rest
        < (genome gidx).indexOf (g gidx) * prodLens genome rest + prodLens genome rest := by
          omega
      _ = ((genome gidx).indexOf (g gidx) + 1) * prodLens genome rest := by ring
      _ ≤ (genome gidx).len * prodLens genome rest :=
          Nat.mul_le_mul_right _ (Nat.succ_le_of_lt hx)

lemma sufProds_length (genome : Nat → DomainE A) :
    ∀ (f : List Nat), (sufProds genome f).length = f.length := by
  intro f
  induction f with
  | nil => rfl
  | cons gidx rest ih => simp [sufProds, ih]

lemma sufProds_getD (genome : Nat → DomainE A) :
    ∀ (f : List Nat) (j : Nat), j < f.length →
      (sufProds genome f).getD j 0 = prodLens genome (f.drop (j + 1)) := by
  intro f
  induction f with
  | nil => intro j hj; simp at hj
  | cons gidx rest ih =>
    intro j hj
    cases j with
    | zero => simp [sufProds]
    | succ j2 =>
      simp only [sufProds, List.getD_cons_succ, List.drop_succ_cons]
      exact ih j2 (by simp at hj; omega)

lemma divisors_eq_sufProds (genome : Nat → DomainE A) (f : List Nat) :
    divisors genome f = sufProds genome f := by
  apply List.ext_getElem
  · rw [sufProds_length]
    unfold divisors
    rw [divFold_length]
    simp
  · intro j h1 h2
    have hj : j < f.length := by
      rw [sufProds_length] at h2; exact h2
    rw [← List.getD_eq_getElem _ 0 h1, ← List.getD_eq_getElem _ 0 h2]
    unfold divisors
    rw [divFold_getD, sufProds_getD genome f j hj]
    simp only [Nat.not_lt_zero, if_false, Nat.zero_add, Nat.sub_zero, if_pos hj,
      replicate_getD, if_pos hj, one_mul]

lemma decodeGo_sufProds_mixedIndex (genome : Nat → DomainE A) (g : Nat → A) :
    ∀ (f : List Nat),
      (∀ idx ∈ f, (genome idx).indexOf (g idx) < (genome idx).len) →
      decodeGo (sufProds genome f) (mixedIndex genome g f) =
        f.map (fun idx => (genome idx).indexOf (g idx)) := by
  intro f
  induction f with
  | nil => intro; rfl
  | cons gidx rest ih =>
    intro h
    have hrest : ∀ idx ∈ rest, (genome idx).indexOf (g idx) < (genome idx).len :=
      fun idx hidx => h idx (List.mem_cons_of_mem _ hidx)
    have hm : mixedIndex genome g rest < prodLens genome rest :=
      mixedIndex_lt_prodLens genome g rest hrest
    have hP : 0 < prodLens genome rest := Nat.pos_of_ne_zero (by omega)
    rw [sufProds, mixedIndex, decodeGo, List.map_cons]
    congr 1
    · rw [Nat.mul_comm, Nat.mul_add_div hP, Nat.div_eq_of_lt hm]
      omega
    · rw [Nat.mul_comm, Nat.mul_add_mod, Nat.mod_eq_of_lt hm]
      exact ih hrest

/-- C10: the quotient/remainder unpacking of `MultivariateModel::sample`
is a left inverse of the mixed-radix packing of
`estimate_from_population`: decoding the packed linear index of a
genotype along a factor recovers the per-position allele indices, as long
as each position holds an in-domain allele. -/
theorem sample_unpack_left_inverse (genome : Nat → DomainE A) (f : List Nat) (g : Nat → A)
    (hdom : ∀ idx ∈ f, (genome idx).indexOf (g idx) < (genome idx).len) :
    decodeGo (divisors genome f) (jointIndex genome f g) =
      f.map (fun idx => (genome idx).indexOf (g idx)) := by
  rw [divisors_eq_sufProds, jointIndex_eq_sigmaIndexBig, sigmaIndexBig_eq_mixedIndex]
  exact decodeGo_sufProds_mixedIndex genome g f hdom

/-- Witness for C10 at the boolean genome, factor `[0, 1]` and the
genotype `(true, false)`. -/
theorem sample_unpack_left_inverse_witness :
    decodeGo (divisors boolGenome [0, 1]) (jointIndex boolGenome [0, 1] gCE) =
      [0, 1].map (fun idx => (boolGenome idx).indexOf (gCE idx)) :=
  sample_unpack_left_inverse boolGenome [0, 1] gCE (by decide)

/-! ### The per-factor counters of `estimate_from_population` -/

lemma getD_map_lt (f : α → β) (l : List α) (i : Nat) (h : i < l.length) (d : β) (d2 : α) :
    (l.map f).getD i d = f (l.getD i d2) := by
  rw [List.getD_eq_getElem _ _ (by simpa using h), List.getD_eq_getElem _ _ h,
    List.getElem_map]

lemma getD_zipWith_lt (f : α → β → γ) (as : List α) (bs : List β) (i : Nat)
    (ha : i < as.length) (hb : i < bs.length) (d : γ) (da : α) (db : β) :
    (List.zipWith f as bs).getD i d = f (as.getD i da) (bs.getD i db) := by
  have hz : i < (List.zipWith f as bs).length := by
    rw [List.length_zipWith]; omega
  rw [List.getD_eq_getElem _ _ hz, List.getD_eq_getElem _ _ ha, List.getD_eq_getElem _ _ hb,
    List.getElem_zipWith]

lemma bump_length : ∀ (c : List Nat) (i : Nat), (bump c i).length = c.length := by
  intro c
  induction c with
  | nil => intro i; rfl
  | cons v tl ih =>
    intro i
    cases i with
    | zero => rfl
    | succ i2 => simp [bump, ih]

lemma bump_getD : ∀ (c : List Nat) (i j : Nat),
    (bump c i).getD j 0 =
      if j = i ∧ j < c.length then c.getD j 0 + 1 else c.getD j 0 := by
  intro c
  induction c with
  | nil => intro i j; simp [bump]
  | cons v tl ih =>
    intro i j
    cases i with
    | zero =>
      cases j with
      | zero => simp [bump]
      | succ j2 => simp [bump]
    | succ i2 =>
      cases j with
      | zero => simp [bump]
      | succ j2 =>
        simp only [bump, List.getD_cons_succ, ih, List.length_cons]
        split_ifs <;> first | rfl | omega

lemma countsStep_length (genome : Nat → DomainE A) (factors : List (List Nat))
    (g : Nat → A) (cs : List (List Nat)) :
    (countsStep genome factors g cs).length = min factors.length cs.length := by
  simp [countsStep]

lemma countsStep_getD (genome : Nat → DomainE A) (factors : List (List Nat))
    (g : Nat → A) (cs : List (List Nat)) (fi : Nat)
    (hf : fi < factors.length) (hc : fi < cs.length) :
    (countsStep genome factors g cs).getD fi [] =
      bump (cs.getD fi []) (jointIndex genome (factors.getD fi []) g) := by
  unfold countsStep
  rw [getD_zipWith_lt _ _ _ _ hf hc [] [] []]

lemma foldl_counts_length (genome : Nat → DomainE A) (factors : List (List Nat)) :
    ∀ (pop : List (Nat → A)) (cs : List (List Nat)), cs.length = factors.length →
      (pop.foldl (fun cs g => countsStep genome factors g cs) cs).length = factors.length := by
  intro pop
  induction pop with
  | nil => intro cs h; simpa using h
  | cons g pop ih =>
    intro cs h
    rw [List.foldl_cons]
    exact ih _ (by rw [countsStep_length]; omega)

lemma foldl_counts_inner_length (genome : Nat → DomainE A) (factors : List (List Nat)) :
    ∀ (pop : List (Nat → A)) (cs : List (List Nat)), cs.length = factors.length →
      ∀ fi, fi < factors.length →
      ((pop.foldl (fun cs g => countsStep genome factors g cs) cs).getD fi []).length =
        (cs.getD fi []).length := by
  intro pop
  induction pop with
  | nil => intro cs h fi hfi; rfl
  | cons g pop ih =>
    intro cs h fi hfi
    rw [List.foldl_cons, ih _ (by rw [countsStep_length]; omega) fi hfi,
      countsStep_getD genome factors g cs fi hfi (by omega), bump_length]

lemma foldl_counts_getD (genome : Nat → DomainE A) (factors : List (List Nat)) :
    ∀ (pop : List (Nat → A)) (cs : List (List Nat)), cs.length = factors.length →
      ∀ fi, fi < factors.length → ∀ k, k < (cs.getD fi []).length →
      ((pop.foldl (fun cs g => countsStep genome factors g cs) cs).getD fi []).getD k 0 =
        (cs.getD fi []).getD k 0 +
          pop.countP (fun g => decide (jointIndex genome (factors.getD fi []) g = k)) := by
  intro pop
  induction pop with
  | nil => intro cs h fi hfi k hk; simp
  | cons g pop ih =>
    intro cs h fi hfi k hk
    rw [List.foldl_cons]
    have hlen : (countsStep genome factors g cs).length = factors.length := by
      rw [countsStep_length]; omega
    have hstep : (countsStep genome factors g cs).getD fi [] =
        bump (cs.getD fi []) (jointIndex genome (factors.getD fi []) g) :=
      countsStep_getD genome factors g cs fi hfi (by omega)
    have hk2 : k < ((countsStep genome factors g cs).getD fi []).length := by
      rw [hstep, bump_length]; exact hk
    rw [ih _ hlen fi hfi k hk2, hstep, bump_getD, List.countP_cons]
    simp only [decide_eq_true_eq]
    split_ifs <;> omega

lemma estimateCounts_length (genome : Nat → DomainE A) (F : List (List Nat))
    (pop : List (Nat → A)) :
    (estimateCounts genome F pop).length = (activeFactors F).length := by
  unfold estimateCounts
  rw [foldl_counts_length]
  simp

lemma estimateCounts_inner_length (genome : Nat → DomainE A) (F : List (List Nat))
    (pop : List (Nat → A)) (fi : Nat) (hfi : fi < (activeFactors F).length) :
    ((estimateCounts genome F pop).getD fi []).length =
      factorSize genome ((activeFactors F).getD fi []) := by
  unfold estimateCounts
  rw [foldl_counts_inner_length _ _ _ _ (by simp) fi hfi,
    getD_map_lt _ _ _ hfi [] []]
  simp

lemma estimateCounts_getD (genome : Nat → DomainE A) (F : List (List Nat))
    (pop : List (Nat → A)) (fi k : Nat) (hfi : fi < (activeFactors F).length)
    (hk : k < factorSize genome ((activeFactors F).getD fi [])) :
    ((estimateCounts genome F pop).getD fi []).getD k 0 =
      pop.countP
        (fun g => decide (jointIndex genome ((activeFactors F).getD fi []) g = k)) := by
  unfold estimateCounts
  have hinit : (((activeFactors F).map (fun f => List.replicate (factorSize genome f) 0)).getD fi []) =
      List.replicate (factorSize genome ((activeFactors F).getD fi [])) 0 := by
    rw [getD_map_lt _ _ _ hfi [] []]
  rw [foldl_counts_getD _ _ _ _ (by simp) fi hfi k (by rw [hinit]; simpa using hk), hinit,
    replicate_getD]
  simp

/-! ### C1 and C5: where outcomes are counted, and that probabilities sum
to one -/

lemma sum_map_add (f g : Nat → Nat) : ∀ (l : List Nat),
    (l.map (fun x => f x + g x)).sum = (l.map f).sum + (l.map g).sum := by
  intro l
  induction l with
  | nil => rfl
  | cons x tl ih => simp [ih]; omega

lemma indicator_sum_zero (m : Nat) : ∀ (l : List Nat), (∀ k ∈ l, ¬ m = k) →
    (l.map (fun k => if m = k then 1 else 0)).sum = 0 := by
  intro l
  induction l with
  | nil => intro; rfl
  | cons x tl ih =>
    intro h
    rw [List.map_cons, List.sum_cons, if_neg (h x (List.mem_cons_self x tl)),
      ih (fun k hk => h k (List.mem_cons_of_mem _ hk))]

lemma indicator_sum_range (m : Nat) : ∀ (s : Nat), m < s →
    ((List.range s).map (fun k => if m = k then 1 else 0)).sum = 1 := by
  intro s
  induction s with
  | zero => intro h; omega
  | succ s ih =>
    intro h
    rw [List.range_succ, List.map_append, List.sum_append]
    by_cases hm : m = s
    · subst hm
      rw [indicator_sum_zero m (List.range m) (fun k hk => by
        rw [List.mem_range] at hk; omega)]
      simp
    · rw [ih (by omega)]
      simp [hm]

lemma countP_partition {A : Type} (J : (Nat → A) → Nat) :
    ∀ (pop : List (Nat → A)) (s : Nat), (∀ g ∈ pop, J g < s) →
      ((List.range s).map (fun k => pop.countP (fun g => decide (J g = k)))).sum =
        pop.length := by
  intro pop
  induction pop with
  | nil =>
    intro s h
    have : ∀ k ∈ List.range s, ([] : List (Nat → A)).countP (fun g => decide (J g = k)) = 0 := by
      intro k hk; rfl
    rw [List.map_congr_left this]
    simp
  | cons g pop ih =>
    intro s h
    have hg : J g < s := h g (List.mem_cons_self g pop)
    have hpop : ∀ x ∈ pop, J x < s := fun x hx => h x (List.mem_cons_of_mem _ hx)
    have hcong : ∀ k ∈ List.range s,
        (g :: pop).countP (fun x => decide (J x = k)) =
          pop.countP (fun x => decide (J x = k)) + (if J g = k then 1 else 0) := by
      intro k hk
      rw [List.countP_cons]
      simp [decide_eq_true_eq]
    rw [List.map_congr_left hcong, sum_map_add, ih s hpop, indicator_sum_range (J g) s hg]
    simp

/-- C1 counterexample: over two boolean positions and the single factor
`[0, 1]`, the individual `(true, false)` is *not* counted at the linear
index given by the specification formula `Σⱼ index_of(iⱼ,aⱼ) ·
∏_{m<j} |domain(iₘ)|` (that index is 1, but the count sits at index 2). -/
theorem mvm_count_index_little_endian_counterexample :
    ¬ (((estimateCounts boolGenome [[0, 1]] [gCE]).getD 0 []).getD
          (sigmaIndexLittle boolGenome [0, 1] gCE) 0 =
        [gCE].countP (fun g => decide (sigmaIndexLittle boolGenome [0, 1] g =
          sigmaIndexLittle boolGenome [0, 1] gCE))) := by
  decide

/-- C1 (amended): `MultivariateModel::estimate_from_population` counts
each individual's joint outcome on a factor at the linear index
`Σⱼ index_of(iⱼ,aⱼ) · ∏_{m>j} |domain(iₘ)|` — each allele index weighted
by the product of the domain sizes of the factor positions *after* it:
the entry at each in-range index `k` of the factor's counter vector is
the number of population members whose outcome has that linear index. -/
theorem mvm_estimate_counts_big_endian (genome : Nat → DomainE A) (F : List (List Nat))
    (pop : List (Nat → A)) (hpop : pop ≠ []) (fi k : Nat)
    (hfi : fi < (activeFactors F).length)
    (hk : k < factorSize genome ((activeFactors F).getD fi [])) :
    ((estimateCounts genome F pop).getD fi []).getD k 0 =
      pop.countP
        (fun g => decide (sigmaIndexBig genome ((activeFactors F).getD fi []) g = k)) := by
  rw [estimateCounts_getD genome F pop fi k hfi hk]
  apply List.countP_congr
  intro g hg
  rw [jointIndex_eq_sigmaIndexBig]

/-- Witness for the amended C1 on a concrete two-position boolean genome,
population `[(true, false)]`, factorization `[[0, 1]]`, index 2. -/
theorem mvm_estimate_counts_big_endian_witness :
    ((estimateCounts boolGenome [[0, 1]] [gCE]).getD 0 []).getD 2 0 =
      [gCE].countP (fun g => decide (sigmaIndexBig boolGenome [0, 1] g = 2)) := by
  have h := mvm_estimate_counts_big_endian boolGenome [[0, 1]] [gCE]
    (List.cons_ne_nil _ _) 0 2 (by decide) (by decide)
  simpa using h

/-- Sum of a counter vector divided pointwise by `N`. -/
lemma sum_map_div_cast (N : ℚ) : ∀ (c : List Nat),
    (c.map (fun (cnt : Nat) => (cnt : ℚ) / N)).sum = ((c.sum : Nat) : ℚ) / N := by
  intro c
  induction c with
  | nil => simp
  | cons v tl ih =>
    rw [List.map_cons, List.sum_cons, ih, List.sum_cons]
    push_cast
    rw [div_add_div_same]

/-- C5: for a non-empty population whose genotypes are in-domain at every
position, every per-factor probability vector of the fitted multivariate
model sums to exactly 1 (over `ℚ`, i.e. exact rational arithmetic). -/
theorem mvm_probabilities_sum_one (genome : Nat → DomainE A) (F : List (List Nat))
    (pop : List (Nat → A)) (hpop : pop ≠ [])
    (hdom : ∀ g ∈ pop, ∀ idx, (genome idx).indexOf (g idx) < (genome idx).len)
    (fi : Nat) (hfi : fi < (activeFactors F).length) :
    ((estimateProbs genome F pop).getD fi []).sum = 1 := by
  have hclen : fi < (estimateCounts genome F pop).length := by
    rw [estimateCounts_length]; exact hfi
  unfold estimateProbs
  rw [getD_map_lt _ _ _ hclen [] [], sum_map_div_cast]
  have hinner := estimateCounts_inner_length genome F pop fi hfi
  have hJ : ∀ g ∈ pop,
      jointIndex genome ((activeFactors F).getD fi []) g <
        factorSize genome ((activeFactors F).getD fi []) := by
    intro g hg
    rw [jointIndex_eq_sigmaIndexBig, sigmaIndexBig_eq_mixedIndex, factorSize_eq_prodLens]
    exact mixedIndex_lt_prodLens genome g _ (fun idx _ => hdom g hg idx)
  have hsum : ((estimateCounts genome F pop).getD fi []).sum = pop.length := by
    rw [sum_eq_range_getD, hinner]
    have hcong : ∀ k ∈ List.range (factorSize genome ((activeFactors F).getD fi [])),
        ((estimateCounts genome F pop).getD fi []).getD k 0 =
          pop.countP
            (fun g => decide (jointIndex genome ((activeFactors F).getD fi []) g = k)) := by
      intro k hk
      rw [List.mem_range] at hk
      exact estimateCounts_getD genome F pop fi k hfi hk
    rw [List.map_congr_left hcong]
    exact countP_partition _ pop _ hJ
  rw [hsum]
  have hlen : (pop.length : ℚ) ≠ 0 := by
    simp only [ne_eq, Nat.cast_eq_zero, List.length_eq_zero]
    exact hpop
  exact div_self hlen

/-- Witness for C5: boolean genome, factorization `[[0, 1], [2]]`,
population of two individuals. -/
theorem mvm_probabilities_sum_one_witness :
    ((estimateProbs boolGenome [[0, 1], [2]] [gCE, fun _ => true]).getD 0 []).sum = 1 :=
  mvm_probabilities_sum_one boolGenome [[0, 1], [2]] [gCE, fun _ => true]
    (List.cons_ne_nil _ _)
    (by
      intro g hg idx
      cases hb : g idx <;> simp [boolGenome, boolDomainE, boolLen, boolIndexOf, hb])
    0 (by decide)

/-! ### C4: factorizations reachable by `join` stay partitions -/

lemma removeTwoGo_comm (a b : Nat) : ∀ (xs : List α) (i : Nat),
    removeTwoGo a b i xs = removeTwoGo b a i xs := by
  intro xs
  induction xs with
  | nil => intro i; rfl
  | cons x xs ih =>
    intro i
    simp only [removeTwoGo, or_comm, ih]

lemma removeTwoGo_high (a b : Nat) : ∀ (xs : List α) (i : Nat), a < i → b < i →
    removeTwoGo a b i xs = xs := by
  intro xs
  induction xs with
  | nil => intro i _ _; rfl
  | cons x xs ih =>
    intro i ha hb
    rw [removeTwoGo, if_neg (by omega), ih (i + 1) (by omega) (by omega)]

lemma removeTwoGo_one_left (a b : Nat) : ∀ (xs : List (List Nat)) (i : Nat),
    a < i → i ≤ b → b < i + xs.length →
    List.Perm ((removeTwoGo a b i xs).flatten ++ xs.getD (b - i) []) xs.flatten := by
  intro xs
  induction xs with
  | nil => intro i ha hb1 hb2; simp at hb2; omega
  | cons x xs ih =>
    intro i ha hb1 hb2
    by_cases hib : i = b
    · rw [removeTwoGo, if_pos (Or.inr hib),
        removeTwoGo_high a b xs (i + 1) (by omega) (by omega)]
      have h0 : b - i = 0 := by omega
      rw [h0, List.getD_cons_zero, List.flatten_cons]
      exact List.perm_append_comm
    · have hb3 : i < b := by omega
      rw [removeTwoGo, if_neg (by omega), List.flatten_cons, List.flatten_cons]
      have hd : b - i = (b - (i + 1)) + 1 := by omega
      rw [hd, List.getD_cons_succ, List.append_assoc]
      exact List.Perm.append_left x
        (ih (i + 1) (by omega) (by omega) (by simp at hb2 ⊢; omega))

lemma removeTwoGo_both (a b : Nat) (hab : a ≠ b) : ∀ (xs : List (List Nat)) (i : Nat),
    i ≤ a → i ≤ b → a < i + xs.length → b < i + xs.length →
    List.Perm ((removeTwoGo a b i xs).flatten ++ (xs.getD (a - i) [] ++ xs.getD (b - i) []))
      xs.flatten := by
  intro xs
  induction xs with
  | nil => intro i ha1 hb1 ha2 hb2; simp at ha2; omega
  | cons x xs ih =>
    intro i ha1 hb1 ha2 hb2
    by_cases hia : i = a
    · rw [removeTwoGo, if_pos (Or.inl hia)]
      have h0 : a - i = 0 := by omega
      have hib : i < b := by omega
      have hd : b - i = (b - (i + 1)) + 1 := by omega
      rw [h0, List.getD_cons_zero, hd, List.getD_cons_succ, List.flatten_cons]
      have hone := removeTwoGo_one_left a b xs (i + 1) (by omega) (by omega)
        (by simp at hb2 ⊢; omega)
      have p1 : List.Perm
          ((removeTwoGo a b (i + 1) xs).flatten ++ (x ++ xs.getD (b - (i + 1)) []))
          (x ++ ((removeTwoGo a b (i + 1) xs).flatten ++ xs.getD (b - (i + 1)) [])) := by
        rw [← List.append_assoc, ← List.append_assoc]
        exact List.Perm.append_right _ List.perm_append_comm
      exact p1.trans (List.Perm.append_left x hone)
    · by_cases hib : i = b
      · rw [removeTwoGo, if_pos (Or.inr hib)]
        have h0 : b - i = 0 := by omega
        have hia2 : i < a := by omega
        have hd : a - i = (a - (i + 1)) + 1 := by omega
        rw [h0, List.getD_cons_zero, hd, List.getD_cons_succ, List.flatten_cons]
        rw [removeTwoGo_comm a b xs (i + 1)]
        have hone := removeTwoGo_one_left b a xs (i + 1) (by omega) (by omega)
          (by simp at ha2 ⊢; omega)
        have p1 : List.Perm
            ((removeTwoGo b a (i + 1) xs).flatten ++ (xs.getD (a - (i + 1)) [] ++ x))
            (x ++ ((removeTwoGo b a (i + 1) xs).flatten ++ xs.getD (a - (i + 1)) [])) := by
          rw [← List.append_assoc]
          exact List.perm_append_comm
        exact p1.trans (List.Perm.append_left x hone)
      · rw [removeTwoGo, if_neg (by omega), List.flatten_cons, List.flatten_cons]
        have hda : a - i = (a - (i + 1)) + 1 := by omega
        have hdb : b - i = (b - (i + 1)) + 1 := by omega
        rw [hda, hdb, List.getD_cons_succ, List.getD_cons_succ, List.append_assoc]
        exact List.Perm.append_left x
          (ih (i + 1) (by omega) (by omega) (by simp at ha2 ⊢; omega)
            (by simp at hb2 ⊢; omega))

lemma mem_removeTwoGo (a b : Nat) : ∀ (xs : List α) (i : Nat) (x : α),
    x ∈ removeTwoGo a b i xs → x ∈ xs := by
  intro xs
  induction xs with
  | nil => intro i x h; exact absurd h (by simp [removeTwoGo])
  | cons y xs ih =>
    intro i x h
    rw [removeTwoGo] at h
    split_ifs at h with hc
    · exact List.mem_cons_of_mem _ (ih (i + 1) x h)
    · rcases List.mem_cons.mp h with h1 | h1
      · exact h1 ▸ List.mem_cons_self y xs
      · exact List.mem_cons_of_mem _ (ih (i + 1) x h1)

lemma getD_mem (l : List α) (i : Nat) (h : i < l.length) (d : α) : l.getD i d ∈ l := by
  rw [List.getD_eq_getElem _ _ h]
  exact List.getElem_mem h

lemma Fjoin_flatten_perm (F : List (List Nat)) (a b : Nat)
    (ha : a < F.length) (hb : b < F.length) (hab : a ≠ b) :
    List.Perm (Fjoin F a b).flatten F.flatten := by
  unfold Fjoin
  rw [List.flatten_append, List.flatten_cons, List.flatten_nil, List.append_nil]
  have := removeTwoGo_both a b hab F 0 (by omega) (by omega) (by omega) (by omega)
  simpa using this

lemma flatten_map_singleton : ∀ (l : List Nat), (l.map (fun i => [i])).flatten = l := by
  intro l
  induction l with
  | nil => rfl
  | cons x tl ih => simp [ih]

lemma univariate_flatten (L : Nat) : (univariate L).flatten = List.range L := by
  unfold univariate
  exact flatten_map_singleton _

/-- C4: every factorization reachable from `Factorization::univariate(L)`
by `join` calls at valid distinct factor positions is a partition of
`{0,…,L-1}`: the concatenation of its factors is a permutation of
`0,…,L-1` (each index exactly once), and no factor is empty. -/
theorem factorization_join_partition_invariant (L : Nat) (F : List (List Nat))
    (h : JoinReach L F) :
    List.Perm F.flatten (List.range L) ∧ ∀ f ∈ F, f ≠ [] := by
  induction h with
  | base =>
    constructor
    · rw [univariate_flatten]
    · intro f hf
      unfold univariate at hf
      rcases List.mem_map.mp hf with ⟨i, _, rfl⟩
      simp
  | @step F a b hreach ha hb hab ih =>
    constructor
    · exact (Fjoin_flatten_perm F a b ha hb hab).trans ih.1
    · intro f hf
      unfold Fjoin at hf
      rcases List.mem_append.mp hf with h1 | h1
      · exact ih.2 f (mem_removeTwoGo a b F 0 f h1)
      · rcases List.mem_singleton.mp h1 with rfl
        have hfa : F.getD a [] ∈ F := getD_mem F a ha []
        have : F.getD a [] ≠ [] := ih.2 _ hfa
        intro hcon
        rcases List.append_eq_nil.mp hcon with ⟨h2, _⟩
        exact this h2

/-- Witness for C4: two joins from the univariate factorization over
four variables. -/
theorem factorization_join_partition_invariant_witness :
    List.Perm ((Fjoin (Fjoin (univariate 4) 0 2) 1 2).flatten) (List.range 4) ∧
      ∀ f ∈ Fjoin (Fjoin (univariate 4) 0 2) 1 2, f ≠ [] :=
  factorization_join_partition_invariant 4 _
    (JoinReach.step (JoinReach.step JoinReach.base (by decide) (by decide) (by decide))
      (by decide) (by decide) (by decide))

/-! ### C9: what `join_all` enumerates -/

lemma removeTwoGo_length (a b : Nat) (hab : a ≠ b) : ∀ (xs : List α) (i : Nat),
    (removeTwoGo a b i xs).length =
      xs.length - (if i ≤ a ∧ a < i + xs.length then 1 else 0)
        - (if i ≤ b ∧ b < i + xs.length then 1 else 0) := by
  intro xs
  induction xs with
  | nil =>
    intro i
    simp only [removeTwoGo, List.length_nil]
    split_ifs <;> omega
  | cons x xs ih =>
    intro i
    by_cases hc : i = a ∨ i = b
    · rw [removeTwoGo, if_pos hc, ih (i + 1)]
      simp only [List.length_cons]
      split_ifs <;> omega
    · rw [removeTwoGo, if_neg hc]
      simp only [List.length_cons, ih (i + 1)]
      split_ifs <;> omega

lemma Fjoin_length (F : List (List Nat)) (a b : Nat)
    (ha : a < F.length) (hb : b < F.length) (hab : a ≠ b) :
    (Fjoin F a b).length = F.length - 1 := by
  unfold Fjoin
  rw [List.length_append, removeTwoGo_length a b hab]
  simp only [List.length_singleton]
  split_ifs <;> omega

lemma mem_allPairs (n : Nat) (p : Nat × Nat) :
    p ∈ allPairs n ↔ p.1 < p.2 ∧ p.2 < n := by
  obtain ⟨a, b⟩ := p
  unfold allPairs
  constructor
  · intro h
    rcases List.mem_flatMap.mp h with ⟨c, hc, hp⟩
    rcases List.mem_map.mp hp with ⟨d, hd, heq⟩
    rw [List.mem_range] at hc
    rw [List.mem_range'_1] at hd
    have h1 : c = a := congrArg Prod.fst heq
    have h2 : d = b := congrArg Prod.snd heq
    constructor <;> omega
  · intro ⟨h1, h2⟩
    apply List.mem_flatMap.mpr
    exact ⟨a, List.mem_range.mpr (by omega),
      List.mem_map.mpr ⟨b, List.mem_range'_1.mpr (by omega), rfl⟩⟩

lemma joinAll_eq_map_allPairs (F : List (List Nat)) :
    joinAll F = (allPairs F.length).map (fun p => Fjoin F p.1 p.2) := by
  unfold joinAll allPairs
  rw [List.map_flatMap]
  simp [List.map_map, Function.comp_def]

lemma sum_map_one : ∀ (l : List Nat), (l.map (fun _ => 1)).sum = l.length := by
  intro l
  induction l with
  | nil => rfl
  | cons x tl ih => simp [ih, Nat.add_comm]

lemma gauss_sum (m : Nat) :
    2 * ((List.range m).map (fun a => m - a)).sum = m * (m + 1) := by
  induction m with
  | zero => simp
  | succ m ih =>
    rw [List.range_succ, List.map_append, List.sum_append]
    have hcong : ∀ a ∈ List.range m, m + 1 - a = (m - a) + 1 := by
      intro a ha
      rw [List.mem_range] at ha
      omega
    have hstep : ((List.range m).map (fun a => m + 1 - a)).sum
        = ((List.range m).map (fun a => m - a)).sum + m := by
      rw [List.map_congr_left hcong, sum_map_add (fun a => m - a) (fun _ => 1),
        sum_map_one]
      simp
    calc 2 * (((List.range m).map (fun a => m + 1 - a)).sum + ([m].map (fun a => m + 1 - a)).sum)
        = 2 * (((List.range m).map (fun a => m - a)).sum + m + 1) := by
          rw [hstep]
          simp only [List.map_cons, List.map_nil, List.sum_cons, List.sum_nil]
          omega
      _ = 2 * ((List.range m).map (fun a => m - a)).sum + 2 * m + 2 := by ring
      _ = m * (m + 1) + 2 * m + 2 := by rw [ih]
      _ = (m + 1) * (m + 1 + 1) := by ring

lemma two_mul_length_joinAll (F : List (List Nat)) :
    2 * (joinAll F).length = F.length * (F.length - 1) := by
  unfold joinAll
  rw [List.length_flatMap]
  simp only [Function.comp_def]
  have hcong : ∀ a ∈ List.range (F.length - 1),
      ((List.range' (a + 1) (F.length - (a + 1))).map (fun b => Fjoin F a b)).length
        = (F.length - 1) - a := by
    intro a ha
    rw [List.mem_range] at ha
    rw [List.length_map, List.length_range']
    omega
  rw [List.map_congr_left hcong, gauss_sum (F.length - 1)]
  rcases Nat.eq_zero_or_pos F.length with h2 | h2
  · simp [h2]
  · have h3 : F.length - 1 + 1 = F.length := by omega
    rw [h3]
    exact Nat.mul_comm _ _

lemma pairwise_disjoint_getD (F : List (List Nat)) (hdisj : F.Pairwise List.Disjoint)
    (i j : Nat) (hi : i < F.length) (hj : j < F.length) (hij : i ≠ j) :
    List.Disjoint (F.getD i []) (F.getD j []) := by
  rw [List.getD_eq_getElem _ _ hi, List.getD_eq_getElem _ _ hj]
  rcases Nat.lt_or_ge i j with h | h
  · exact (List.pairwise_iff_getElem.mp hdisj) i j hi hj h
  · exact List.Disjoint.symm ((List.pairwise_iff_getElem.mp hdisj) j i hj hi (by omega))

lemma nodup_allPairs (n : Nat) : (allPairs n).Nodup := by
  unfold allPairs
  rw [List.nodup_flatMap]
  constructor
  · intro a _
    apply List.Nodup.map_on ?inj (List.nodup_range' _ _)
    intro x _ y _ hxy
    exact congrArg Prod.snd hxy
  · apply List.Pairwise.imp ?himp (List.pairwise_lt_range (n - 1))
    intro a c hlt x hx1 hx2
    rcases List.mem_map.mp hx1 with ⟨b1, _, rfl⟩
    rcases List.mem_map.mp hx2 with ⟨b2, _, heq2⟩
    have := congrArg Prod.fst heq2
    simp only at this
    omega

lemma Fjoin_inj_on (F : List (List Nat)) (hne : ∀ f ∈ F, f ≠ [])
    (hdisj : F.Pairwise List.Disjoint) :
    ∀ p ∈ allPairs F.length, ∀ q ∈ allPairs F.length,
      Fjoin F p.1 p.2 = Fjoin F q.1 q.2 → p = q := by
  intro p hp q hq heq
  obtain ⟨a, b⟩ := p
  obtain ⟨c, d⟩ := q
  rw [mem_allPairs] at hp hq
  obtain ⟨hab, hbn⟩ := hp
  obtain ⟨hcd, hdn⟩ := hq
  simp only at hab hbn hcd hdn heq ⊢
  have happ : F.getD a [] ++ F.getD b [] = F.getD c [] ++ F.getD d [] := by
    have h1 := congrArg List.getLast? heq
    rw [Fjoin, Fjoin, List.getLast?_concat, List.getLast?_concat] at h1
    exact Option.some.inj h1
  obtain ⟨x, hx⟩ := List.exists_mem_of_ne_nil _ (hne _ (getD_mem F a (by omega) []))
  obtain ⟨y, hy⟩ := List.exists_mem_of_ne_nil _ (hne _ (getD_mem F b (by omega) []))
  have hxcd : x ∈ F.getD c [] ∨ x ∈ F.getD d [] := by
    have hx2 : x ∈ F.getD c [] ++ F.getD d [] := by
      rw [← happ]; exact List.mem_append_left _ hx
    exact List.mem_append.mp hx2
  have hycd : y ∈ F.getD c [] ∨ y ∈ F.getD d [] := by
    have hy2 : y ∈ F.getD c [] ++ F.getD d [] := by
      rw [← happ]; exact List.mem_append_right _ hy
    exact List.mem_append.mp hy2
  have hac : a = c ∨ a = d := by
    rcases hxcd with h | h
    · left
      by_contra hne2
      exact pairwise_disjoint_getD F hdisj a c (by omega) (by omega) hne2 hx h
    · right
      by_contra hne2
      exact pairwise_disjoint_getD F hdisj a d (by omega) (by omega) hne2 hx h
  have hbd : b = c ∨ b = d := by
    rcases hycd with h | h
    · left
      by_contra hne2
      exact pairwise_disjoint_getD F hdisj b c (by omega) (by omega) hne2 hy h
    · right
      by_contra hne2
      exact pairwise_disjoint_getD F hdisj b d (by omega) (by omega) hne2 hy h
  have hfin : a = c ∧ b = d := by omega
  rw [hfin.1, hfin.2]

/-- C9: `join_all` enumerates exactly `join(a, b)` for the pairs
`0 ≤ a < b < |F|` in order, its length is `|F|·(|F|−1)/2`, its entries are
pairwise distinct (for a factorization whose factors are non-empty and
pairwise disjoint, as the `Factorization` invariant guarantees), and a
factorization of length 1 yields the empty sequence. -/
theorem join_all_enumeration_spec (F : List (List Nat))
    (hne : ∀ f ∈ F, f ≠ []) (hdisj : F.Pairwise List.Disjoint) :
    joinAll F = (allPairs F.length).map (fun p => Fjoin F p.1 p.2) ∧
      (∀ p : Nat × Nat, p ∈ allPairs F.length ↔ p.1 < p.2 ∧ p.2 < F.length) ∧
      (joinAll F).length = F.length * (F.length - 1) / 2 ∧
      (joinAll F).Nodup ∧
      (F.length = 1 → joinAll F = []) := by
  refine ⟨joinAll_eq_map_allPairs F, fun p => mem_allPairs F.length p, ?_, ?_, ?_⟩
  · have h2 := two_mul_length_joinAll F
    obtain ⟨P, hP⟩ : ∃ P, F.length * (F.length - 1) = P := ⟨_, rfl⟩
    rw [hP] at h2 ⊢
    omega
  · rw [joinAll_eq_map_allPairs F]
    exact List.Nodup.map_on (Fjoin_inj_on F hne hdisj) (nodup_allPairs F.length)
  · intro h1
    unfold joinAll
    rw [h1]
    rfl

/-- Witness for C9 at the univariate factorization over three
variables. -/
theorem join_all_enumeration_spec_witness :
    joinAll (univariate 3) =
        (allPairs (univariate 3).length).map (fun p => Fjoin (univariate 3) p.1 p.2) ∧
      (∀ p : Nat × Nat, p ∈ allPairs (univariate 3).length ↔
        p.1 < p.2 ∧ p.2 < (univariate 3).length) ∧
      (joinAll (univariate 3)).length =
        (univariate 3).length * ((univariate 3).length - 1) / 2 ∧
      (joinAll (univariate 3)).Nodup ∧
      ((univariate 3).length = 1 → joinAll (univariate 3) = []) :=
  join_all_enumeration_spec (univariate 3) (by decide)
    (by
      have h3 : univariate 3 = [[0], [1], [2]] := by decide
      rw [h3]
      simp [List.pairwise_cons, List.Disjoint])

/-! ### C6 and C7: the selection operators -/

lemma minByStep_some (cmp : ι → ι → Ordering) (b x : ι) :
    minByStep cmp (some b) x = some (if cmp x b = Ordering.lt then x else b) := by
  simp only [minByStep]
  split_ifs <;> rfl

lemma foldl_minByStep_some (cmp : ι → ι → Ordering) :
    ∀ (l : List ι) (b : ι), ∃ x, l.foldl (minByStep cmp) (some b) = some x := by
  intro l
  induction l with
  | nil => intro b; exact ⟨b, rfl⟩
  | cons y l ih =>
    intro b
    rw [List.foldl_cons, minByStep_some]
    exact ih _

lemma minByCmp_isSome (cmp : ι → ι → Ordering) (l : List ι) (h : l ≠ []) :
    ∃ x, minByCmp cmp l = some x := by
  cases l with
  | nil => exact absurd rfl h
  | cons y l =>
    unfold minByCmp
    rw [List.foldl_cons]
    exact foldl_minByStep_some cmp l y

lemma optTraverse_some_of_forall (f : α → Option β) :
    ∀ (l : List α), (∀ x ∈ l, ∃ y, f x = some y) →
      ∃ ys, optTraverse f l = some ys ∧ ys.length = l.length := by
  intro l
  induction l with
  | nil => intro _; exact ⟨[], rfl, rfl⟩
  | cons x l ih =>
    intro h
    obtain ⟨y, hy⟩ := h x (List.mem_cons_self x l)
    obtain ⟨ys, hys, hlen⟩ := ih (fun z hz => h z (List.mem_cons_of_mem _ hz))
    refine ⟨y :: ys, ?_, by simp [hlen]⟩
    rw [optTraverse, hy, hys]

lemma optTraverse_length_flatten (f : α → Option (List β)) (m : Nat) :
    ∀ (l : List α), (∀ x ∈ l, ∃ ys, f x = some ys ∧ ys.length = m) →
      ∃ ws, optTraverse f l = some ws ∧ ws.flatten.length = l.length * m := by
  intro l
  induction l with
  | nil => intro _; exact ⟨[], rfl, by simp⟩
  | cons x l ih =>
    intro h
    obtain ⟨ys, hys, hyslen⟩ := h x (List.mem_cons_self x l)
    obtain ⟨ws, hws, hwlen⟩ := ih (fun z hz => h z (List.mem_cons_of_mem _ hz))
    refine ⟨ys :: ws, ?_, ?_⟩
    · rw [optTraverse, hys, hws]
    · simp only [List.flatten_cons, List.length_append, hyslen, hwlen, List.length_cons,
        Nat.succ_mul]
      omega

lemma roundWinners_some (cmp : ι → ι → Ordering) (k numTour : Nat)
    (poolT : List ι) (hk : 0 < k) (hlen : poolT.length = k * numTour) :
    ∃ ws, roundWinners cmp k numTour poolT = some ws ∧ ws.length = numTour := by
  unfold roundWinners
  have hall : ∀ i ∈ List.range numTour,
      ∃ y, minByCmp cmp ((poolT.drop (k * i)).take k) = some y := by
    intro i hi
    rw [List.mem_range] at hi
    apply minByCmp_isSome
    have hle : k * i + k ≤ k * numTour := by
      have h2 := Nat.mul_le_mul_left k (show i + 1 ≤ numTour by omega)
      rw [Nat.mul_succ] at h2
      exact h2
    have hlen3 : ((poolT.drop (k * i)).take k).length = k := by
      rw [List.length_take, List.length_drop, hlen]
      omega
    intro hnil
    rw [hnil] at hlen3
    simp at hlen3
    omega
  obtain ⟨ws, hws, hlen2⟩ := optTraverse_some_of_forall _ (List.range numTour) hall
  exact ⟨ws, hws, by rw [hlen2, List.length_range]⟩

lemma tourAssemble_ok {ι : Type} (p : Nat) (r : Option (List (List ι))) (res : List ι)
    (h : tourAssemble p r = Except.ok res) : res.length = p := by
  cases r with
  | none => simp [tourAssemble] at h
  | some ws =>
    simp only [tourAssemble] at h
    split_ifs at h with h5
    rw [← Except.ok.inj h]
    exact h5

/-- C6 counterexample: `CopyOffspringSelection::select` with one parent
and no offspring leaves the population with 0 members, not 1. -/
theorem copy_offspring_size_counterexample :
    ¬ ((copyOffspringSelect ([0] : List Nat) []).length = ([0] : List Nat).length) := by
  decide

/-- C6 (amended): every completed `select` call leaves `|population|`
unchanged — unconditionally for `NoSelection`, `TruncationSelection` and
(any non-panicking call of) `TournamentSelection`, and for
`CopyOffspringSelection` under its documented precondition
`|offspring| = |population|`. -/
theorem selection_preserves_population_size {ι : Type} (cmp : ι → ι → Ordering)
    (pop offspring : List ι) :
    (noSelectionSelect pop offspring).length = pop.length ∧
    (offspring.length = pop.length →
      (copyOffspringSelect pop offspring).length = pop.length) ∧
    (truncationSelect cmp pop offspring).length = pop.length ∧
    (∀ (k : Nat) (inc : Bool) (shuffles : Nat → List ι) (res : List ι),
      tournamentSelect cmp k inc shuffles pop offspring = Except.ok res →
      res.length = pop.length) := by
  refine ⟨rfl, fun h => h, ?_, ?_⟩
  · unfold truncationSelect
    rw [List.length_take, List.length_mergeSort, List.length_append]
    omega
  · intro k inc shuffles res h
    simp only [tournamentSelect] at h
    split_ifs at h
    all_goals first
      | exact tourAssemble_ok _ _ _ h
      | simp at h

/-- Witness for C6 at a concrete two-element population. -/
theorem selection_preserves_population_size_witness :
    (noSelectionSelect [1, 2] [3, 4]).length = ([1, 2] : List Nat).length ∧
    (([3, 4] : List Nat).length = ([1, 2] : List Nat).length →
      (copyOffspringSelect [1, 2] [3, 4]).length = ([1, 2] : List Nat).length) ∧
    (truncationSelect compare [1, 2] [3, 4]).length = ([1, 2] : List Nat).length ∧
    (∀ (k : Nat) (inc : Bool) (shuffles : Nat → List Nat) (res : List Nat),
      tournamentSelect compare k inc shuffles [1, 2] [3, 4] = Except.ok res →
      res.length = ([1, 2] : List Nat).length) :=
  selection_preserves_population_size compare [1, 2] [3, 4]

lemma tourAssemble_ne_mismatch {ι : Type} (p : Nat) (r : Option (List (List ι))) :
    tourAssemble p r ≠ Except.error TourError.poolSizeMismatch := by
  cases r with
  | none => simp [tourAssemble]
  | some ws =>
    simp only [tourAssemble]
    split_ifs <;> simp

/-- C7: with a positive tournament size and a non-empty pool,
`TournamentSelection::select` fails with the pool-size-mismatch error
exactly when one of its two divisibility preconditions is violated, and
when both hold (and each shuffle permutes the pool) the call completes
with `Ok`, returning a population of the original size. -/
theorem tournament_pool_mismatch_iff {ι : Type} (cmp : ι → ι → Ordering) (k : Nat)
    (inc : Bool) (shuffles : Nat → List ι) (pop offspring : List ι)
    (hk : 0 < k)
    (hpool : 0 < offspring.length + (if inc then pop.length else 0)) :
    (tournamentSelect cmp k inc shuffles pop offspring =
        Except.error TourError.poolSizeMismatch ↔
      ¬((offspring.length + (if inc then pop.length else 0)) % k = 0 ∧
        (k * pop.length) % (offspring.length + (if inc then pop.length else 0)) = 0)) ∧
    ((∀ t, List.Perm (shuffles t) (poolOf inc pop offspring)) →
      (offspring.length + (if inc then pop.length else 0)) % k = 0 →
      (k * pop.length) % (offspring.length + (if inc then pop.length else 0)) = 0 →
      ∃ res, tournamentSelect cmp k inc shuffles pop offspring = Except.ok res ∧
        res.length = pop.length) := by
  have hk0 : ¬ k = 0 := by omega
  have hN0 : ¬ (offspring.length + (if inc then pop.length else 0)) = 0 := by omega
  constructor
  · by_cases hA : (offspring.length + (if inc then pop.length else 0)) % k = 0
    · by_cases hB :
          (k * pop.length) % (offspring.length + (if inc then pop.length else 0)) = 0
      · constructor
        · intro herr
          simp only [tournamentSelect, if_neg hk0, if_neg (not_not_intro hA), if_neg hN0,
            if_neg (not_not_intro hB)] at herr
          exact absurd herr (tourAssemble_ne_mismatch _ _)
        · intro hcon
          exact absurd ⟨hA, hB⟩ hcon
      · constructor
        · intro _
          exact fun hcon => hB hcon.2
        · intro _
          simp only [tournamentSelect, if_neg hk0, if_neg (not_not_intro hA), if_neg hN0,
            if_pos hB]
    · constructor
      · intro _
        exact fun hcon => hA hcon.1
      · intro _
        simp only [tournamentSelect, if_neg hk0, if_pos hA]
  · intro hperm hA hB
    have hdvd1 : k ∣ (offspring.length + (if inc then pop.length else 0)) :=
      Nat.dvd_of_mod_eq_zero hA
    have hdvd2 : (offspring.length + (if inc then pop.length else 0)) ∣ (k * pop.length) :=
      Nat.dvd_of_mod_eq_zero hB
    have hNk : k * ((offspring.length + (if inc then pop.length else 0)) / k) =
        offspring.length + (if inc then pop.length else 0) := Nat.mul_div_cancel' hdvd1
    have hpoolLen : (poolOf inc pop offspring).length =
        offspring.length + (if inc then pop.length else 0) := by
      unfold poolOf
      cases inc <;> simp <;> omega
    have hrounds : ∀ t ∈ List.range (k * pop.length /
        (offspring.length + (if inc then pop.length else 0))),
        ∃ ws, roundWinners cmp k
            ((offspring.length + (if inc then pop.length else 0)) / k) (shuffles t) =
            some ws ∧
          ws.length = (offspring.length + (if inc then pop.length else 0)) / k := by
      intro t _
      apply roundWinners_some cmp k _ (shuffles t) hk
      rw [List.Perm.length_eq (hperm t), hpoolLen]
      exact hNk.symm
    obtain ⟨ws, hws, hwlen⟩ := optTraverse_length_flatten
      (fun t => roundWinners cmp k
        ((offspring.length + (if inc then pop.length else 0)) / k) (shuffles t))
      ((offspring.length + (if inc then pop.length else 0)) / k)
      (List.range (k * pop.length / (offspring.length + (if inc then pop.length else 0))))
      hrounds
    have hp : (List.range (k * pop.length /
          (offspring.length + (if inc then pop.length else 0)))).length *
        ((offspring.length + (if inc then pop.length else 0)) / k) = pop.length := by
      rw [List.length_range]
      have h1 : (k * pop.length / (offspring.length + (if inc then pop.length else 0))) *
          (offspring.length + (if inc then pop.length else 0)) = k * pop.length :=
        Nat.div_mul_cancel hdvd2
      have h3 : ((k * pop.length / (offspring.length + (if inc then pop.length else 0))) *
          ((offspring.length + (if inc then pop.length else 0)) / k)) * k =
          pop.length * k := by
        calc ((k * pop.length / (offspring.length + (if inc then pop.length else 0))) *
              ((offspring.length + (if inc then pop.length else 0)) / k)) * k
            = (k * pop.length / (offspring.length + (if inc then pop.length else 0))) *
              (k * ((offspring.length + (if inc then pop.length else 0)) / k)) := by ring
          _ = (k * pop.length / (offspring.length + (if inc then pop.length else 0))) *
              (offspring.length + (if inc then pop.length else 0)) := by rw [hNk]
          _ = k * pop.length := h1
          _ = pop.length * k := by ring
      exact Nat.eq_of_mul_eq_mul_right hk h3
    refine ⟨ws.flatten, ?_, ?_⟩
    · simp only [tournamentSelect, if_neg hk0, if_neg (not_not_intro hA), if_neg hN0,
        if_neg (not_not_intro hB)]
      rw [hws]
      simp only [tourAssemble]
      rw [if_pos (show ws.flatten.length = pop.length by rw [hwlen, hp])]
    · rw [hwlen, hp]

/-- Witness for C7 at the scenario of the claim: tournament size 3,
10 parents, 10 offspring, parents included — the pool of 20 is not
divisible by 3, so the call fails with the pool-size mismatch. -/
theorem tournament_pool_mismatch_iff_witness :
    tournamentSelect compare 3 true
        (fun _ => poolOf true [1, 2, 3, 4, 5, 6, 7, 8, 9, 10]
          [11, 12, 13, 14, 15, 16, 17, 18, 19, 20])
        [1, 2, 3, 4, 5, 6, 7, 8, 9, 10] [11, 12, 13, 14, 15, 16, 17, 18, 19, 20] =
      Except.error TourError.poolSizeMismatch :=
  (tournament_pool_mismatch_iff compare 3 true
      (fun _ => poolOf true [1, 2, 3, 4, 5, 6, 7, 8, 9, 10]
        [11, 12, 13, 14, 15, 16, 17, 18, 19, 20])
      [1, 2, 3, 4, 5, 6, 7, 8, 9, 10] [11, 12, 13, 14, 15, 16, 17, 18, 19, 20]
      (by decide) (by decide)).1.mpr (by decide)

/-! ### C8: the evaluation counter of `SimpleGA::run` -/

lemma initialEval_eq : ∀ (pop : List ι) (c : Nat), initialEval pop c = c + pop.length := by
  intro pop
  induction pop with
  | nil => intro c; simp [initialEval]
  | cons x pop ih =>
    intro c
    unfold initialEval at ih ⊢
    rw [List.foldl_cons, ih (c + 1), List.length_cons]
    omega

lemma runGo_bounds (budget : Nat) (targetHit : Nat → Bool) (offSizes : Nat → Nat)
    (P : Nat) (hoff : ∀ t, offSizes t ≤ P) :
    ∀ (fuel iter evals : Nat), 1 ≤ evals → evals ≤ budget + P →
      ∀ n, (runGo budget targetHit offSizes fuel iter evals = GAStatus.targetReached n ∨
            runGo budget targetHit offSizes fuel iter evals = GAStatus.budgetReached n) →
        1 ≤ n ∧ n ≤ budget + P := by
  intro fuel
  induction fuel with
  | zero =>
    intro iter evals h1 h2 n hn
    rcases hn with hn | hn <;> simp [runGo] at hn
  | succ fuel ih =>
    intro iter evals h1 h2 n hn
    simp only [runGo] at hn
    by_cases hlt : evals < budget
    · simp only [if_pos hlt] at hn
      by_cases htgt : targetHit iter = true
      · simp only [if_pos htgt] at hn
        rcases hn with hn | hn
        · have := GAStatus.targetReached.inj hn
          omega
        · simp at hn
      · simp only [if_neg htgt] at hn
        exact ih (iter + 1) (evals + offSizes iter) (by omega)
          (by have := hoff iter; omega) n hn
    · simp only [if_neg hlt] at hn
      rcases hn with hn | hn
      · simp at hn
      · have := GAStatus.budgetReached.inj hn
        omega

/-- C8 counterexample: on an empty population with budget 0, `run`
returns immediately with the counter still at 0, violating
`evaluations() ≥ 1`. -/
theorem run_empty_population_counterexample :
    runGA ([] : List Nat) 0 5 (fun _ => false) (fun _ => 0) = GAStatus.budgetReached 0 ∧
      ¬ (1 : Nat) ≤ 0 := by
  constructor
  · rfl
  · omega

/-- C8 (amended): for a *non-empty* population, a fresh evaluator, and
any variation operator returning at most `|population|` offspring per
generation (as all the provided operators do), the initial evaluation
advances the counter by exactly `|population|`, and whenever `run`
returns — with either status — the final count `n` satisfies
`1 ≤ n ≤ budget + |population|`. -/
theorem simplega_run_budget_bounds {ι : Type} (pop : List ι) (budget fuel : Nat)
    (targetHit : Nat → Bool) (offSizes : Nat → Nat)
    (hpop : pop ≠ []) (hoff : ∀ t, offSizes t ≤ pop.length) :
    initialEval pop 0 = 0 + pop.length ∧
    ∀ n, (runGA pop budget fuel targetHit offSizes = GAStatus.targetReached n ∨
          runGA pop budget fuel targetHit offSizes = GAStatus.budgetReached n) →
      1 ≤ n ∧ n ≤ budget + pop.length := by
  have hinit : initialEval pop 0 = 0 + pop.length := initialEval_eq pop 0
  refine ⟨hinit, ?_⟩
  intro n hn
  unfold runGA at hn
  rw [hinit] at hn
  have hlen : 0 < pop.length := List.length_pos.mpr hpop
  exact runGo_bounds budget targetHit offSizes pop.length hoff fuel 0 (0 + pop.length)
    (by omega) (by omega) n hn

/-- Witness for C8 on a one-individual population, budget 2. -/
theorem simplega_run_budget_bounds_witness :
    initialEval ([0] : List Nat) 0 = 0 + ([0] : List Nat).length ∧
    ∀ n, (runGA ([0] : List Nat) 2 10 (fun _ => false) (fun _ => 1) =
            GAStatus.targetReached n ∨
          runGA ([0] : List Nat) 2 10 (fun _ => false) (fun _ => 1) =
            GAStatus.budgetReached n) →
      1 ≤ n ∧ n ≤ 2 + ([0] : List Nat).length :=
  simplega_run_budget_bounds [0] 2 10 (fun _ => false) (fun _ => 1)
    (List.cons_ne_nil _ _) (fun _ => by simp)

/-! ### C3: `index_of` is a left inverse of `get` on the built-in
domains -/

lemma getD_strict_mono (l : List Int) (hs : List.Pairwise (· < ·) l) :
    ∀ (p q : Nat), p < l.length → q < l.length → p < q → l.getD p 0 < l.getD q 0 := by
  intro p q hp hq hpq
  rw [List.getD_eq_getElem _ _ hp, List.getD_eq_getElem _ _ hq]
  exact List.pairwise_iff_getElem.mp hs p q hp hq hpq

lemma binarySearchGo_correct (l : List Int) (hs : List.Pairwise (· < ·) l)
    (i : Nat) (hi : i < l.length) :
    ∀ (fuel left right : Nat), left ≤ i → i < right → right ≤ l.length →
      right - left < fuel →
      binarySearchGo l (l.getD i 0) fuel left right = some i := by
  intro fuel
  induction fuel with
  | zero => intro left right h1 h2 h3 h4; omega
  | succ fuel ih =>
    intro left right h1 h2 h3 h4
    rw [binarySearchGo]
    have hlr : left < right := by omega
    rw [if_pos hlr]
    have hmidlt : left + (right - left) / 2 < right := by omega
    rcases lt_trichotomy (l.getD (left + (right - left) / 2) 0) (l.getD i 0) with hc | hc | hc
    · rw [if_pos hc]
      have hmi : left + (right - left) / 2 < i := by
        by_contra hcon
        push_neg at hcon
        rcases Nat.eq_or_lt_of_le hcon with he | hl2
        · rw [he] at hc
          exact lt_irrefl _ hc
        · exact lt_asymm hc (getD_strict_mono l hs i _ hi (by omega) hl2)
      exact ih (left + (right - left) / 2 + 1) right (by omega) h2 h3 (by omega)
    · have hn1 : ¬ l.getD (left + (right - left) / 2) 0 < l.getD i 0 := by
        rw [hc]
        exact lt_irrefl _
      have hn2 : ¬ l.getD i 0 < l.getD (left + (right - left) / 2) 0 := by
        rw [hc]
        exact lt_irrefl _
      rw [if_neg hn1, if_neg hn2]
      have hmi : left + (right - left) / 2 = i := by
        by_contra hcon
        rcases Nat.lt_or_ge (left + (right - left) / 2) i with hl2 | hge
        · exact absurd hc (ne_of_lt (getD_strict_mono l hs _ i (by omega) hi hl2))
        · have hgt : i < left + (right - left) / 2 := by omega
          exact absurd hc.symm (ne_of_lt (getD_strict_mono l hs i _ hi (by omega) hgt))
      rw [hmi]
    · rw [if_neg (lt_asymm hc), if_pos hc]
      have him : i < left + (right - left) / 2 := by
        by_contra hcon
        push_neg at hcon
        rcases Nat.eq_or_lt_of_le hcon with he | hl2
        · rw [← he] at hc
          exact lt_irrefl _ hc
        · exact lt_asymm hc (getD_strict_mono l hs _ i (by omega) hi hl2)
      exact ih left (left + (right - left) / 2) h1 him (by omega) (by omega)

/-- C3: on both built-in domains, `index_of` is a left inverse of `get`
for every in-range index — for `BoolDomain` by the hard-coded tables, and
for every `DisjointIntegralDomain` whose allele list is sorted and
deduplicated (strictly increasing), whose `index_of` runs
`slice::binary_search`. -/
theorem domain_index_of_get_roundtrip :
    (∀ i, i < boolLen → ∃ a, boolGet i = some a ∧ boolIndexOf a = i) ∧
    (∀ (l : List Int), List.Pairwise (· < ·) l → ∀ i, i < l.length →
      indexOfInt l (l.getD i 0) = some i) := by
  constructor
  · intro i hi
    match i, hi with
    | 0, _ => exact ⟨false, rfl, rfl⟩
    | 1, _ => exact ⟨true, rfl, rfl⟩
  · intro l hs i hi
    unfold indexOfInt
    exact binarySearchGo_correct l hs i hi (l.length + 1) 0 l.length (by omega) hi
      (le_refl _) (by omega)

/-- Witness for C3: the boolean domain at index 1, and the integral
domain `{3, 5, 9}` at index 1. -/
theorem domain_index_of_get_roundtrip_witness :
    (∃ a, boolGet 1 = some a ∧ boolIndexOf a = 1) ∧
      indexOfInt [3, 5, 9] (([3, 5, 9] : List Int).getD 1 0) = some 1 :=
  ⟨domain_index_of_get_roundtrip.1 1 (by decide),
    domain_index_of_get_roundtrip.2 [3, 5, 9] (by decide) 1 (by decide)⟩

/-! ### C2: the greedy linkage-learning loop of `Ecga::select_model` -/

lemma estimate_factorization (genome : Nat → DomainE A) (pop : List (Nat → A))
    (F : List (List Nat)) : (estimate genome pop F).factorization = F := rfl

lemma minByCCStep_some {A : Type} (b m : MModel A) :
    minByCCStep (some b) m = some (if ccM m < ccM b then m else b) := by
  simp only [minByCCStep]
  split_ifs <;> rfl

lemma foldl_minByCCStep_spec {A : Type} :
    ∀ (l : List (MModel A)) (b : MModel A),
      ∃ x, l.foldl minByCCStep (some b) = some x ∧ x ∈ b :: l ∧ ccM x ≤ ccM b ∧
        ∀ y ∈ l, ccM x ≤ ccM y := by
  intro l
  induction l with
  | nil =>
    intro b
    exact ⟨b, rfl, List.mem_cons_self b [], le_refl _,
      fun y hy => absurd hy (List.not_mem_nil y)⟩
  | cons m l ih =>
    intro b
    rw [List.foldl_cons, minByCCStep_some]
    obtain ⟨x, hx, hmem, hle, hall⟩ := ih (if ccM m < ccM b then m else b)
    refine ⟨x, hx, ?_, ?_, ?_⟩
    · rcases List.mem_cons.mp hmem with h1 | h1
      · by_cases hc : ccM m < ccM b
        · rw [if_pos hc] at h1
          rw [h1]
          exact List.mem_cons_of_mem _ (List.mem_cons_self m l)
        · rw [if_neg hc] at h1
          rw [h1]
          exact List.mem_cons_self b (m :: l)
      · exact List.mem_cons_of_mem _ (List.mem_cons_of_mem _ h1)
    · by_cases hc : ccM m < ccM b
      · rw [if_pos hc] at hle
        exact le_of_lt (lt_of_le_of_lt hle hc)
      · rw [if_neg hc] at hle
        exact hle
    · intro y hy
      rcases List.mem_cons.mp hy with h1 | h1
      · subst h1
        by_cases hc : ccM y < ccM b
        · rw [if_pos hc] at hle
          exact hle
        · rw [if_neg hc] at hle
          exact le_trans hle (not_lt.mp hc)
      · exact hall y h1

lemma minByCC_spec {A : Type} (l : List (MModel A)) (x : MModel A)
    (h : minByCC l = some x) : x ∈ l ∧ ∀ y ∈ l, ccM x ≤ ccM y := by
  cases l with
  | nil => exact absurd h (by simp [minByCC])
  | cons b l =>
    unfold minByCC at h
    rw [List.foldl_cons] at h
    have hb : minByCCStep (none : Option (MModel A)) b = some b := rfl
    rw [hb] at h
    obtain ⟨x0, hx0, hmem, hle, hall⟩ := foldl_minByCCStep_spec l b
    rw [hx0] at h
    obtain rfl : x0 = x := Option.some.inj h
    refine ⟨hmem, ?_⟩
    intro y hy
    rcases List.mem_cons.mp hy with h1 | h1
    · rw [h1]
      exact hle
    · exact hall y h1

lemma minByCC_none {A : Type} (l : List (MModel A)) (h : minByCC l = none) : l = [] := by
  cases l with
  | nil => rfl
  | cons b l =>
    unfold minByCC at h
    rw [List.foldl_cons] at h
    have hb : minByCCStep (none : Option (MModel A)) b = some b := rfl
    rw [hb] at h
    obtain ⟨x0, hx0, _, _, _⟩ := foldl_minByCCStep_spec l b
    rw [hx0] at h
    exact absurd h (by simp)

lemma mem_joinAll_length (F G : List (List Nat)) (h : G ∈ joinAll F) :
    2 ≤ F.length ∧ G.length = F.length - 1 := by
  unfold joinAll at h
  rcases List.mem_flatMap.mp h with ⟨a, ha, hG⟩
  rcases List.mem_map.mp hG with ⟨b, hb, rfl⟩
  rw [List.mem_range] at ha
  rw [List.mem_range'_1] at hb
  exact ⟨by omega, Fjoin_length F a b (by omega) (by omega) (by omega)⟩

lemma greedyReach_trans {A : Type} (genome : Nat → DomainE A) (pop : List (Nat → A))
    {F G H : List (List Nat)} (h1 : GreedyReach genome pop F G)
    (h2 : GreedyReach genome pop G H) : GreedyReach genome pop F H := by
  induction h2 with
  | refl => exact h1
  | step _ hmin hle ih => exact GreedyReach.step ih hmin hle

lemma selectModelGo_spec {A : Type} (genome : Nat → DomainE A) (pop : List (Nat → A)) :
    ∀ (fuel : Nat) (G : List (List Nat)), G.length ≤ fuel →
      ∃ H, GreedyReach genome pop G H ∧
        selectModelGo genome pop fuel (estimate genome pop G) = estimate genome pop H ∧
        ∀ F2 ∈ joinAll H,
          ccM (estimate genome pop H) < ccM (estimate genome pop F2) := by
  intro fuel
  induction fuel with
  | zero =>
    intro G hG
    refine ⟨G, GreedyReach.refl G, rfl, ?_⟩
    have hnil : G = [] := List.length_eq_zero.mp (by omega)
    subst hnil
    intro F2 hF2
    simp [joinAll] at hF2
  | succ fuel ih =>
    intro G hG
    rw [selectModelGo, estimate_factorization]
    split
    next hmin =>
      refine ⟨G, GreedyReach.refl G, rfl, ?_⟩
      have hjnil : joinAll G = [] :=
        List.map_eq_nil_iff.mp (minByCC_none _ hmin)
      intro F2 hF2
      rw [hjnil] at hF2
      exact absurd hF2 (List.not_mem_nil F2)
    next best hmin =>
      obtain ⟨hmem, hminle⟩ := minByCC_spec _ best hmin
      rcases List.mem_map.mp hmem with ⟨F2, hF2mem, rfl⟩
      by_cases hacc : ccM (estimate genome pop F2) ≤ ccM (estimate genome pop G)
      · rw [if_pos hacc]
        obtain ⟨hlen2, hlen1⟩ := mem_joinAll_length G F2 hF2mem
        obtain ⟨H, hreach, heq, hstop⟩ := ih F2 (by omega)
        refine ⟨H, ?_, heq, hstop⟩
        have hstep : GreedyReach genome pop G F2 :=
          GreedyReach.step (GreedyReach.refl G) hmin hacc
        exact greedyReach_trans genome pop hstep hreach
      · rw [if_neg hacc]
        refine ⟨G, GreedyReach.refl G, rfl, ?_⟩
        intro F3 hF3
        have hle := hminle (estimate genome pop F3)
          (List.mem_map_of_mem (fun fact => estimate genome pop fact) hF3)
        exact lt_of_lt_of_le (not_le.mp hacc) hle

/-- C2: the greedy linkage search of `Ecga::select_model`, started from
the model fitted to the initial factorization, returns a model fitted to
a factorization reachable by accepted greedy steps — each step replacing
the current factorization by the minimum-combined-complexity candidate
among the models fitted to `join_all`, and only when that candidate
scores `≤` the current model — and it stops exactly in a state where
either `join_all` is empty or every candidate scores strictly worse than
the returned model. -/
theorem ecga_select_model_greedy {A : Type} (genome : Nat → DomainE A)
    (pop : List (Nat → A)) (F : List (List Nat)) (fuel : Nat)
    (hfuel : F.length ≤ fuel) :
    ∃ G, GreedyReach genome pop F G ∧
      selectModel genome pop F fuel = estimate genome pop G ∧
      ∀ F2 ∈ joinAll G,
        ccM (estimate genome pop G) < ccM (estimate genome pop F2) :=
  selectModelGo_spec genome pop fuel F hfuel

/-- Witness for C2 on a one-variable genome (the loop terminates at once
because `join_all` of a single-factor factorization is empty). -/
theorem ecga_select_model_greedy_witness :
    ∃ G, GreedyReach boolGenome [fun _ => false] [[0]] G ∧
      selectModel boolGenome [fun _ => false] [[0]] 1 =
        estimate boolGenome [fun _ => false] G ∧
      ∀ F2 ∈ joinAll G,
        ccM (estimate boolGenome [fun _ => false] G) <
          ccM (estimate boolGenome [fun _ => false] F2) :=
  ecga_select_model_greedy boolGenome [fun _ => false] [[0]] 1 (by decide)
